import Mathlib

/-!
Verification of the HTR error classifier (`classify_errors.py`).

Python strings are modelled as `List Char`; a Python `dict`/`defaultdict(int)`
of counters is modelled as a total function with default value `0`; the
`''` placeholder character of the source's `EditOp` is modelled as `none`.

Loops whose index pair strictly decreases are modelled with an explicit
fuel argument equal to the loop's own termination measure (so the fuel
never runs out on the calls the source performs); this keeps every
definition structurally recursive and hence executable by the kernel.
-/

namespace Transcribus

/-- Character-level edit operation (`EditOp` in the source).  The source stores
`''` in `ref_char`/`hyp_char` for the absent side of an insertion/deletion;
that empty string is modelled as `none`.  `operation` is one of
`'S'`, `'D'`, `'I'`, `'='`, exactly as in the source. -/
structure EditOp where
  ref_char : Option Char
  hyp_char : Option Char
  operation : Char
deriving DecidableEq, Repr

/-- Word-level edit operation (`WordEditOp` in the source). -/
structure WordEditOp where
  ref_words : List (List Char)
  hyp_words : List (List Char)
  operation : Char
deriving DecidableEq, Repr

/-- Unit substitution cost: `cost = 0 if c1 == c2 else 1`. -/
def cst (c1 c2 : Char) : Nat := if c1 = c2 then 0 else 1

/-- The DP table of `levenshtein_align`, with fuel: `dpFuel ref hyp f i j` is
the value `dp[i][j]` filled by the source's nested loops, provided
`i + j ≤ f`.  The recurrence is `dp[i][0] = i`, `dp[0][j] = j` and
`dp[i][j] = min(dp[i-1][j] + 1, dp[i][j-1] + 1, dp[i-1][j-1] + cost)` where
`cost = 0 if ref[i-1] == hyp[j-1] else 1`.  Out-of-range character reads use
the (never relevant in the source's index range) default `' '`. -/
def dpFuel (ref hyp : List Char) : Nat → Nat → Nat → Nat
  | _, i, 0 => i
  | _, 0, j + 1 => j + 1
  | 0, _ + 1, _ + 1 => 0
  | f + 1, i + 1, j + 1 =>
    min (dpFuel ref hyp f i (j + 1) + 1)
      (min (dpFuel ref hyp f (i + 1) j + 1)
        (dpFuel ref hyp f i j + cst (ref.getD i ' ') (hyp.getD j ' ')))

/-- `dp[i][j]` of `levenshtein_align`: `dpFuel` at its sufficient fuel. -/
def dpVal (ref hyp : List Char) (i j : Nat) : Nat := dpFuel ref hyp (i + j) i j

/-- The backtrace loop of `levenshtein_align`, from cell `(i, j)` down to
`(0, 0)`, producing the ops in the order the source appends them (the source
reverses the list at the end).  The source's conditions at `(i, j)` with
`i > 0`, `j > 0` are, in order: characters equal → `'='`; `dp[i][j] ==
dp[i-1][j-1]+1` → `'S'`; `dp[i][j] == dp[i-1][j]+1` → `'D'`; else `'I'`.
When `j = 0 < i` the first two conditions fail and the third reads
`dp[i][0] == dp[i-1][0] + 1`, i.e. `i = (i-1) + 1`, which always holds, so
that arm always emits `'D'`; when `i = 0 < j` all three fail and the loop
emits `'I'`.  Each iteration decreases `i + j` by one, so fuel `i + j`
suffices. -/
def btFuel (ref hyp : List Char) : Nat → Nat → Nat → List EditOp
  | _, 0, 0 => []
  | 0, _, _ => []
  | f + 1, i + 1, 0 =>
    ⟨some (ref.getD i ' '), none, 'D'⟩ :: btFuel ref hyp f i 0
  | f + 1, 0, j + 1 =>
    ⟨none, some (hyp.getD j ' '), 'I'⟩ :: btFuel ref hyp f 0 j
  | f + 1, i + 1, j + 1 =>
    if ref.getD i ' ' = hyp.getD j ' ' then
      ⟨some (ref.getD i ' '), some (hyp.getD j ' '), '='⟩ :: btFuel ref hyp f i j
    else if dpVal ref hyp (i + 1) (j + 1) = dpVal ref hyp i j + 1 then
      ⟨some (ref.getD i ' '), some (hyp.getD j ' '), 'S'⟩ :: btFuel ref hyp f i j
    else if dpVal ref hyp (i + 1) (j + 1) = dpVal ref hyp i (j + 1) + 1 then
      ⟨some (ref.getD i ' '), none, 'D'⟩ :: btFuel ref hyp f i (j + 1)
    else
      ⟨none, some (hyp.getD j ' '), 'I'⟩ :: btFuel ref hyp f (i + 1) j

/-- `levenshtein_align` from the source: fill the DP table, backtrace from
`(n, m)`, and reverse the collected ops (`return ops[::-1]`). -/
def levenshtein_align (ref hyp : List Char) : List EditOp :=
  (btFuel ref hyp (ref.length + hyp.length) ref.length hyp.length).reverse

/-- Helper making the reference edit-distance recursion structural:
`lev_spec_aux levs a s t = lev_spec (a :: s) t` where `levs = lev_spec s`. -/
def lev_spec_aux (levs : List Char → Nat) (a : Char) (s : List Char) :
    List Char → Nat
  | [] => s.length + 1
  | b :: t =>
    min (levs (b :: t) + 1)
      (min (lev_spec_aux levs a s t + 1) (levs t + cst a b))

/-- Reference definition of the Levenshtein edit distance, written from the
spec's words (glossary: minimum number of single-character insert / delete /
substitute operations, unit cost), as the classic recursion
`lev([], t) = |t|`, `lev(s, []) = |s|`,
`lev(a::s, b::t) = min(lev(s, b::t) + 1, lev(a::s, t) + 1, lev(s, t) + cst a b)`. -/
def lev_spec : List Char → List Char → Nat
  | [], t => t.length
  | a :: s, t => lev_spec_aux (lev_spec s) a s t

theorem lev_spec_nil_left (t : List Char) : lev_spec [] t = t.length := rfl

theorem lev_spec_nil_right (s : List Char) : lev_spec s [] = s.length := by
  cases s <;> rfl

theorem lev_spec_cons_cons (a b : Char) (s t : List Char) :
    lev_spec (a :: s) (b :: t) =
      min (lev_spec s (b :: t) + 1)
        (min (lev_spec (a :: s) t + 1) (lev_spec s t + cst a b)) := rfl

/-- Shuffle lemma for the nine-term minimum appearing in the two-ended
expansion of the edit distance: both sides are the minimum of the same nine
sums. -/
theorem min_shuffle (p1 p2 p3 q1 q2 q3 r1 r2 r3 c d : ℕ) :
    min (min (p1 + 1) (min (p2 + 1) (p3 + c)) + 1)
      (min (min (q1 + 1) (min (q2 + 1) (q3 + c)) + 1)
        (min (r1 + 1) (min (r2 + 1) (r3 + c)) + d)) =
    min (min (p1 + 1) (min (q1 + 1) (r1 + d)) + 1)
      (min (min (p2 + 1) (min (q2 + 1) (r2 + d)) + 1)
        (min (p3 + 1) (min (q3 + 1) (r3 + d)) + c)) := by
  simp only [← min_add_add_right]
  ring_nf
  ac_rfl

/-- The classic front-recursion for `lev_spec` is also valid when peeling the
last character of both strings: the key "two-ended" property of the edit
distance. -/
theorem lev_spec_snoc (a b : Char) :
    ∀ (n : Nat) (s t : List Char), s.length + t.length ≤ n →
      lev_spec (s ++ [a]) (t ++ [b]) =
        min (lev_spec s (t ++ [b]) + 1)
          (min (lev_spec (s ++ [a]) t + 1) (lev_spec s t + cst a b)) := by
  intro n
  induction n with
  | zero =>
    intro s t h
    match s, t with
    | [], [] =>
      simp only [List.nil_append, lev_spec_cons_cons, lev_spec_nil_left,
        lev_spec_nil_right, List.length_cons, List.length_nil]
    | [], _ :: _ => simp at h
    | _ :: _, _ => simp at h
  | succ n ih =>
    intro s t h
    match s, t with
    | [], [] =>
      simp only [List.nil_append, lev_spec_cons_cons, lev_spec_nil_left,
        lev_spec_nil_right, List.length_cons, List.length_nil]
    | [], y :: t' =>
      have ih1 := ih [] t' (by simp at h ⊢; omega)
      simp only [List.nil_append, List.cons_append, lev_spec_cons_cons,
        lev_spec_nil_left, lev_spec_nil_right, List.length_cons,
        List.length_append, List.length_nil] at ih1 ⊢
      omega
    | x :: s', [] =>
      have ih1 := ih s' [] (by simp at h ⊢; omega)
      simp only [List.nil_append, List.cons_append, lev_spec_cons_cons,
        lev_spec_nil_left, lev_spec_nil_right, List.length_cons,
        List.length_append, List.length_nil] at ih1 ⊢
      omega
    | x :: s', y :: t' =>
      have ih1 := ih s' (y :: t') (by simp at h ⊢; omega)
      have ih2 := ih (x :: s') t' (by simp at h ⊢; omega)
      have ih3 := ih s' t' (by simp at h ⊢; omega)
      simp only [List.cons_append] at ih1 ih2 ih3 ⊢
      rw [lev_spec_cons_cons x y (s' ++ [a]) (t' ++ [b]),
        lev_spec_cons_cons x y s' (t' ++ [b]),
        lev_spec_cons_cons x y (s' ++ [a]) t',
        lev_spec_cons_cons x y s' t', ih1, ih2, ih3]
      exact min_shuffle _ _ _ _ _ _ _ _ _ _ _

/-- Edit distance is invariant under reversing both strings. -/
theorem lev_spec_rev : ∀ (n : Nat) (s t : List Char), s.length + t.length ≤ n →
    lev_spec s.reverse t.reverse = lev_spec s t := by
  intro n
  induction n with
  | zero =>
    intro s t h
    match s, t with
    | [], t => simp [lev_spec_nil_left]
    | x :: s', [] => simp [lev_spec_nil_right]
    | x :: s', y :: t' => simp at h
  | succ n ih =>
    intro s t h
    match s, t with
    | [], t => simp [lev_spec_nil_left]
    | x :: s', [] => simp [lev_spec_nil_right]
    | x :: s', y :: t' =>
      rw [List.reverse_cons, List.reverse_cons,
        lev_spec_snoc x y (s'.reverse.length + t'.reverse.length)
          s'.reverse t'.reverse le_rfl,
        ← List.reverse_cons y, ← List.reverse_cons x,
        ih s' (y :: t') (by simp at h ⊢; omega),
        ih (x :: s') t' (by simp at h ⊢; omega),
        ih s' t' (by simp at h ⊢; omega),
        lev_spec_cons_cons]

/-- The value of `dpFuel` does not depend on the fuel, as long as the fuel is
at least `i + j`. -/
theorem dpFuel_congr (ref hyp : List Char) :
    ∀ f g i j, i + j ≤ f → i + j ≤ g →
      dpFuel ref hyp f i j = dpFuel ref hyp g i j := by
  intro f
  induction f with
  | zero =>
    intro g i j h _
    obtain rfl : i = 0 := by omega
    obtain rfl : j = 0 := by omega
    simp [dpFuel]
  | succ f ih =>
    intro g i j h hg
    match i, j with
    | i, 0 => simp [dpFuel]
    | 0, j + 1 => simp [dpFuel]
    | i + 1, j + 1 =>
      cases g with
      | zero => omega
      | succ g =>
        show min (dpFuel ref hyp f i (j + 1) + 1) _ = min (dpFuel ref hyp g i (j + 1) + 1) _
        rw [ih g i (j + 1) (by omega) (by omega), ih g (i + 1) j (by omega) (by omega),
          ih g i j (by omega) (by omega)]

theorem dpVal_row_zero (ref hyp : List Char) (i : Nat) :
    dpVal ref hyp i 0 = i := by
  simp [dpVal, dpFuel]

theorem dpVal_col_zero (ref hyp : List Char) (j : Nat) :
    dpVal ref hyp 0 j = j := by
  cases j <;> simp [dpVal, dpFuel]

theorem dpVal_succ_succ (ref hyp : List Char) (i j : Nat) :
    dpVal ref hyp (i + 1) (j + 1) =
      min (dpVal ref hyp i (j + 1) + 1)
        (min (dpVal ref hyp (i + 1) j + 1)
          (dpVal ref hyp i j + cst (ref.getD i ' ') (hyp.getD j ' '))) := by
  have hf : i + 1 + (j + 1) = i + j + 1 + 1 := by omega
  simp only [dpVal, hf]
  rw [dpFuel]
  rw [dpFuel_congr ref hyp (i + j + 1) (i + (j + 1)) i (j + 1) (by omega) (by omega),
    dpFuel_congr ref hyp (i + j + 1) (i + 1 + j) (i + 1) j (by omega) (by omega),
    dpFuel_congr ref hyp (i + j + 1) (i + j) i j (by omega) (by omega)]

/-- If `i < l.length`, taking one more element and reversing conses that
element in front. -/
theorem take_succ_reverse (l : List Char) (i : Nat) (h : i < l.length) :
    (l.take (i + 1)).reverse = l.getD i ' ' :: (l.take i).reverse := by
  rw [List.take_succ, List.getElem?_eq_getElem h]
  simp [List.getElem?_eq_getElem h]

/-- The DP table agrees with the spec-level edit distance of the reversed
prefixes. -/
theorem dpVal_eq_lev_spec (ref hyp : List Char) :
    ∀ i, i ≤ ref.length → ∀ j, j ≤ hyp.length →
      dpVal ref hyp i j = lev_spec (ref.take i).reverse (hyp.take j).reverse := by
  intro i
  induction i with
  | zero =>
    intro _ j hj
    rw [dpVal_col_zero]
    simp [lev_spec_nil_left, List.length_take]
    omega
  | succ i ihi =>
    intro hi j
    induction j with
    | zero =>
      intro _
      rw [dpVal_row_zero]
      simp [lev_spec_nil_right, List.length_take]
      omega
    | succ j ihj =>
      intro hj
      have hi' : i < ref.length := hi
      have hj' : j < hyp.length := hj
      rw [dpVal_succ_succ, ihi (le_of_lt hi') (j + 1) hj, ihj (le_of_lt hj'),
        ihi (le_of_lt hi') j (le_of_lt hj'),
        take_succ_reverse ref i hi', take_succ_reverse hyp j hj',
        lev_spec_cons_cons]

theorem dpVal_length (ref hyp : List Char) :
    dpVal ref hyp ref.length hyp.length = lev_spec ref hyp := by
  rw [dpVal_eq_lev_spec ref hyp _ le_rfl _ le_rfl, List.take_length,
    List.take_length, lev_spec_rev (ref.length + hyp.length) _ _ le_rfl]

/-- Moving right in a DP row costs at most one. -/
theorem dp_step_right (ref hyp : List Char) (i j : Nat) :
    dpVal ref hyp i (j + 1) ≤ dpVal ref hyp i j + 1 := by
  cases i with
  | zero => rw [dpVal_col_zero, dpVal_col_zero]
  | succ i => rw [dpVal_succ_succ]; omega

/-- Moving down in a DP column costs at most one. -/
theorem dp_step_down (ref hyp : List Char) (i j : Nat) :
    dpVal ref hyp (i + 1) j ≤ dpVal ref hyp i j + 1 := by
  cases j with
  | zero => rw [dpVal_row_zero, dpVal_row_zero]
  | succ j => rw [dpVal_succ_succ]; omega

/-- Moving down in a DP column loses at most one. -/
theorem dp_down_ge (ref hyp : List Char) (i : Nat) :
    ∀ j, dpVal ref hyp i j ≤ dpVal ref hyp (i + 1) j + 1 := by
  intro j
  induction j with
  | zero => rw [dpVal_row_zero, dpVal_row_zero]; omega
  | succ j ih =>
    have hb := dp_step_right ref hyp i j
    rw [dpVal_succ_succ]
    omega

/-- Moving right in a DP row loses at most one. -/
theorem dp_right_ge (ref hyp : List Char) (j : Nat) :
    ∀ i, dpVal ref hyp i j ≤ dpVal ref hyp i (j + 1) + 1 := by
  intro i
  induction i with
  | zero => rw [dpVal_col_zero, dpVal_col_zero]; omega
  | succ i ih =>
    have hb := dp_step_down ref hyp i j
    rw [dpVal_succ_succ]
    omega

/-- The DP table is monotone along diagonals. -/
theorem dp_diag_mono (ref hyp : List Char) (i j : Nat) :
    dpVal ref hyp i j ≤ dpVal ref hyp (i + 1) (j + 1) := by
  have h1 := dp_right_ge ref hyp j i
  have h2 := dp_down_ge ref hyp i j
  rw [dpVal_succ_succ]
  omega

/-- When the characters agree, the diagonal step preserves the DP value. -/
theorem dp_diag_eq (ref hyp : List Char) (i j : Nat)
    (h : ref.getD i ' ' = hyp.getD j ' ') :
    dpVal ref hyp (i + 1) (j + 1) = dpVal ref hyp i j := by
  have h1 := dp_diag_mono ref hyp i j
  have h2 : cst (ref.getD i ' ') (hyp.getD j ' ') = 0 := by
    simp only [cst, if_pos h]
  have h3 := dpVal_succ_succ ref hyp i j
  rw [h2] at h3
  omega

/-- Count of non-`'='` operations, as the claim states them: the operations
tagged `'S'`, `'D'`, `'I'`. -/
def countSDI : List EditOp → Nat
  | [] => 0
  | op :: l =>
    (if op.operation = 'S' ∨ op.operation = 'D' ∨ op.operation = 'I' then 1 else 0) +
      countSDI l

theorem countSDI_cons_count (op : EditOp) (l : List EditOp)
    (h : op.operation = 'S' ∨ op.operation = 'D' ∨ op.operation = 'I') :
    countSDI (op :: l) = countSDI l + 1 := by
  rw [countSDI, if_pos h]
  omega

theorem countSDI_cons_skip (op : EditOp) (l : List EditOp)
    (h : ¬(op.operation = 'S' ∨ op.operation = 'D' ∨ op.operation = 'I')) :
    countSDI (op :: l) = countSDI l := by
  rw [countSDI, if_neg h]
  omega

theorem countSDI_append (l1 l2 : List EditOp) :
    countSDI (l1 ++ l2) = countSDI l1 + countSDI l2 := by
  induction l1 with
  | nil => simp [countSDI]
  | cons op l ih => simp [countSDI, ih]; omega

theorem countSDI_reverse (l : List EditOp) : countSDI l.reverse = countSDI l := by
  induction l with
  | nil => rfl
  | cons op l ih => simp [countSDI, countSDI_append, ih]; omega

/-- The backtrace emits exactly `dp[i][j]` non-match operations. -/
theorem btFuel_countSDI (ref hyp : List Char) :
    ∀ (f i j : Nat), i + j ≤ f →
      countSDI (btFuel ref hyp f i j) = dpVal ref hyp i j := by
  intro f
  induction f with
  | zero =>
    intro i j h
    obtain rfl : i = 0 := by omega
    obtain rfl : j = 0 := by omega
    simp [btFuel, countSDI, dpVal_row_zero]
  | succ f ih =>
    intro i j h
    match i, j with
    | 0, 0 => simp [btFuel, countSDI, dpVal_row_zero]
    | i + 1, 0 =>
      show countSDI (⟨some (ref.getD i ' '), none, 'D'⟩ :: btFuel ref hyp f i 0) = _
      rw [countSDI_cons_count _ _ (Or.inr (Or.inl rfl)), ih i 0 (by omega),
        dpVal_row_zero, dpVal_row_zero]
    | 0, j + 1 =>
      show countSDI (⟨none, some (hyp.getD j ' '), 'I'⟩ :: btFuel ref hyp f 0 j) = _
      rw [countSDI_cons_count _ _ (Or.inr (Or.inr rfl)), ih 0 j (by omega),
        dpVal_col_zero, dpVal_col_zero]
    | i + 1, j + 1 =>
      show countSDI (if ref.getD i ' ' = hyp.getD j ' ' then _ else _) = _
      split_ifs with h1 h2 h3
      · rw [countSDI_cons_skip _ _ (by simp), ih i j (by omega),
          dp_diag_eq ref hyp i j h1]
      · rw [countSDI_cons_count _ _ (Or.inl rfl), ih i j (by omega), h2]
      · rw [countSDI_cons_count _ _ (Or.inr (Or.inl rfl)), ih i (j + 1) (by omega), h3]
      · rw [countSDI_cons_count _ _ (Or.inr (Or.inr rfl)), ih (i + 1) j (by omega)]
        have hc : cst (ref.getD i ' ') (hyp.getD j ' ') = 1 := by
          simp only [cst, if_neg h1]
        have hd := dpVal_succ_succ ref hyp i j
        rw [hc] at hd
        omega

/-- The backtrace's present `ref_char`s spell the reversed `ref` prefix, and
its present `hyp_char`s the reversed `hyp` prefix. -/
theorem btFuel_chars (ref hyp : List Char) :
    ∀ (f i j : Nat), i + j ≤ f → i ≤ ref.length → j ≤ hyp.length →
      (btFuel ref hyp f i j).filterMap (fun op => op.ref_char) =
          (ref.take i).reverse ∧
        (btFuel ref hyp f i j).filterMap (fun op => op.hyp_char) =
          (hyp.take j).reverse := by
  intro f
  induction f with
  | zero =>
    intro i j h _ _
    obtain rfl : i = 0 := by omega
    obtain rfl : j = 0 := by omega
    simp [btFuel]
  | succ f ih =>
    intro i j h hi hj
    match i, j with
    | 0, 0 => simp [btFuel]
    | i + 1, 0 =>
      obtain ⟨ih1, ih2⟩ := ih i 0 (by omega) (by omega) hj
      have hbt : btFuel ref hyp (f + 1) (i + 1) 0 =
          ⟨some (ref.getD i ' '), none, 'D'⟩ :: btFuel ref hyp f i 0 := rfl
      rw [hbt, take_succ_reverse ref i (by omega)]
      simp only [List.filterMap_cons, ih1, ih2]
      constructor <;> trivial
    | 0, j + 1 =>
      obtain ⟨ih1, ih2⟩ := ih 0 j (by omega) hi (by omega)
      have hbt : btFuel ref hyp (f + 1) 0 (j + 1) =
          ⟨none, some (hyp.getD j ' '), 'I'⟩ :: btFuel ref hyp f 0 j := rfl
      rw [hbt, take_succ_reverse hyp j (by omega)]
      simp only [List.filterMap_cons, ih1, ih2]
      constructor <;> trivial
    | i + 1, j + 1 =>
      have hbt : btFuel ref hyp (f + 1) (i + 1) (j + 1) =
          if ref.getD i ' ' = hyp.getD j ' ' then
            ⟨some (ref.getD i ' '), some (hyp.getD j ' '), '='⟩ :: btFuel ref hyp f i j
          else if dpVal ref hyp (i + 1) (j + 1) = dpVal ref hyp i j + 1 then
            ⟨some (ref.getD i ' '), some (hyp.getD j ' '), 'S'⟩ :: btFuel ref hyp f i j
          else if dpVal ref hyp (i + 1) (j + 1) = dpVal ref hyp i (j + 1) + 1 then
            ⟨some (ref.getD i ' '), none, 'D'⟩ :: btFuel ref hyp f i (j + 1)
          else
            ⟨none, some (hyp.getD j ' '), 'I'⟩ :: btFuel ref hyp f (i + 1) j := rfl
      rw [hbt]
      split_ifs with h1 h2 h3
      · obtain ⟨ih1, ih2⟩ := ih i j (by omega) (by omega) (by omega)
        rw [take_succ_reverse ref i (by omega), take_succ_reverse hyp j (by omega)]
        simp only [List.filterMap_cons, ih1, ih2]
        constructor <;> trivial
      · obtain ⟨ih1, ih2⟩ := ih i j (by omega) (by omega) (by omega)
        rw [take_succ_reverse ref i (by omega), take_succ_reverse hyp j (by omega)]
        simp only [List.filterMap_cons, ih1, ih2]
        constructor <;> trivial
      · obtain ⟨ih1, ih2⟩ := ih i (j + 1) (by omega) (by omega) hj
        rw [take_succ_reverse ref i (by omega)]
        simp only [List.filterMap_cons, ih1, ih2]
        constructor <;> trivial
      · obtain ⟨ih1, ih2⟩ := ih (i + 1) j (by omega) hi (by omega)
        rw [take_succ_reverse hyp j (by omega)]
        simp only [List.filterMap_cons, ih1, ih2]
        constructor <;> trivial

/-- Claim C1: for every pair of strings `ref` and `hyp`, the number of
non-Match operations (`'S'`, `'D'`, `'I'`) in the edit sequence returned by
`levenshtein_align` equals the Levenshtein edit distance between `ref` and
`hyp` under unit cost for insertion, deletion, and substitution. -/
theorem claim1_nonmatch_count_is_levenshtein (ref hyp : List Char) :
    countSDI (levenshtein_align ref hyp) = lev_spec ref hyp := by
  rw [levenshtein_align, countSDI_reverse,
    btFuel_countSDI ref hyp (ref.length + hyp.length) _ _ le_rfl, dpVal_length]

/-- Claim C2: concatenating the present `ref_char` fields of the sequence
returned by `levenshtein_align` (the absent fields of Insert edits skipped)
reproduces `ref` exactly, and concatenating the present `hyp_char` fields
(the absent fields of Delete edits skipped) reproduces `hyp` exactly. -/
theorem claim2_alignment_reconstructs_inputs (ref hyp : List Char) :
    (levenshtein_align ref hyp).filterMap (fun op => op.ref_char) = ref ∧
      (levenshtein_align ref hyp).filterMap (fun op => op.hyp_char) = hyp := by
  obtain ⟨h1, h2⟩ := btFuel_chars ref hyp (ref.length + hyp.length)
    ref.length hyp.length le_rfl le_rfl le_rfl
  constructor
  · rw [levenshtein_align, List.filterMap_reverse, h1, List.take_length,
      List.reverse_reverse]
  · rw [levenshtein_align, List.filterMap_reverse, h2, List.take_length,
      List.reverse_reverse]

/-! ### `levenshtein_distance`: the source's row-based implementation -/

/-- One cell of `levenshtein_distance`'s inner loop: with `prev` the tail of
`previous_row` starting at index `j` and `last = current_row[j]`, this is
`min(previous_row[j+1] + 1, current_row[j] + 1, previous_row[j] + (c1 != c2))`. -/
def levCell (prev : List Nat) (last : Nat) (c1 c2 : Char) : Nat :=
  min ((prev.drop 1).headD 0 + 1) (min (last + 1) (prev.headD 0 + cst c1 c2))

/-- The inner loop of `levenshtein_distance` over `enumerate(s2)`, producing
the `current_row` entries after the leading `i + 1`. -/
def levRowCells (c1 : Char) : List Nat → Nat → List Char → List Nat
  | _, _, [] => []
  | prev, last, c2 :: rest =>
    levCell prev last c1 c2 ::
      levRowCells c1 (prev.drop 1) (levCell prev last c1 c2) rest

/-- One outer-loop step of `levenshtein_distance`:
`current_row = [i + 1]` extended by the inner loop. -/
def levRow (s2 : List Char) (prev : List Nat) (i : Nat) (c1 : Char) : List Nat :=
  (i + 1) :: levRowCells c1 prev (i + 1) s2

/-- The row loop of `levenshtein_distance`, starting from
`previous_row = range(len(s2) + 1)` and returning `previous_row[-1]`. -/
def levRows (s1 s2 : List Char) : Nat :=
  (List.foldl (fun prev ic => levRow s2 prev ic.1 ic.2)
    (List.range (s2.length + 1)) s1.enum).getLastD 0

/-- The body of `levenshtein_distance` after the argument swap:
`if len(s2) == 0: return len(s1)`, else the row loop. -/
def levGuard (s1 s2 : List Char) : Nat :=
  if s2.length = 0 then s1.length else levRows s1 s2

/-- `levenshtein_distance` from the source.  The source's first line
recursively calls itself with swapped arguments when `len(s1) < len(s2)`
(the swapped call does not recurse again); that single unfolding is written
out here. -/
def levenshtein_distance (s1 s2 : List Char) : Nat :=
  if s1.length < s2.length then levGuard s2 s1 else levGuard s1 s2

/-- Row `i` of the DP table as a list. -/
def rowOf (s1 s2 : List Char) (i : Nat) : List Nat :=
  (List.range (s2.length + 1)).map (fun j => dpVal s1 s2 i j)

theorem rowOf_length (s1 s2 : List Char) (i : Nat) :
    (rowOf s1 s2 i).length = s2.length + 1 := by
  simp [rowOf]

theorem rowOf_drop_cons (s1 s2 : List Char) (k j : Nat) (h : j < s2.length + 1) :
    (rowOf s1 s2 k).drop j = dpVal s1 s2 k j :: (rowOf s1 s2 k).drop (j + 1) := by
  rw [List.drop_eq_getElem_cons (by simp [rowOf_length]; omega)]
  simp [rowOf]

/-- The inner loop turns (the tail of) row `i` into (the tail of) row `i+1`. -/
theorem levRowCells_correct (s1 s2 : List Char) (i : Nat) :
    ∀ (t : List Char) (j : Nat), s2.drop j = t →
      levRowCells (s1.getD i ' ') ((rowOf s1 s2 i).drop j) (dpVal s1 s2 (i + 1) j) t =
        (rowOf s1 s2 (i + 1)).drop (j + 1) := by
  intro t
  induction t with
  | nil =>
    intro j hdrop
    have hlen : s2.length ≤ j := by
      by_contra hlt
      rw [List.drop_eq_getElem_cons (by omega)] at hdrop
      exact List.cons_ne_nil _ _ hdrop
    rw [levRowCells, List.drop_eq_nil_of_le (by rw [rowOf_length]; omega)]
  | cons c2 rest ih =>
    intro j hdrop
    have hj : j < s2.length := by
      by_contra hge
      rw [List.drop_eq_nil_of_le (by omega)] at hdrop
      exact List.cons_ne_nil _ _ hdrop.symm
    have hget : s2[j] = c2 ∧ s2.drop (j + 1) = rest := by
      rw [List.drop_eq_getElem_cons hj] at hdrop
      exact ⟨by injection hdrop, by injection hdrop⟩
    have hc2 : s2.getD j ' ' = c2 := by
      rw [List.getD_eq_getElem?_getD, List.getElem?_eq_getElem hj]
      exact hget.1
    have hcell : levCell ((rowOf s1 s2 i).drop j) (dpVal s1 s2 (i + 1) j)
        (s1.getD i ' ') c2 = dpVal s1 s2 (i + 1) (j + 1) := by
      rw [levCell, List.drop_drop, rowOf_drop_cons s1 s2 i (j + 1) (by omega),
        rowOf_drop_cons s1 s2 i j (by omega)]
      simp only [List.headD_cons]
      rw [← hc2, dpVal_succ_succ]
    rw [levRowCells, hcell, List.drop_drop, ih (j + 1) hget.2,
      rowOf_drop_cons s1 s2 (i + 1) (j + 1) (by omega)]

/-- The outer loop carries row `i` to the final row. -/
theorem levRows_fold_correct (s1 s2 : List Char) :
    ∀ (u : List Char) (i : Nat), s1.drop i = u → i ≤ s1.length →
      List.foldl (fun prev ic => levRow s2 prev ic.1 ic.2)
          (rowOf s1 s2 i) (List.enumFrom i u) =
        rowOf s1 s2 s1.length := by
  intro u
  induction u with
  | nil =>
    intro i hdrop hle
    have : s1.length ≤ i := by
      by_contra hlt
      rw [List.drop_eq_getElem_cons (by omega)] at hdrop
      exact List.cons_ne_nil _ _ hdrop
    have : i = s1.length := by omega
    subst this
    rfl
  | cons c1 rest ih =>
    intro i hdrop hle
    have hi : i < s1.length := by
      by_contra hge
      rw [List.drop_eq_nil_of_le (by omega)] at hdrop
      exact List.cons_ne_nil _ _ hdrop.symm
    have hget : s1[i] = c1 ∧ s1.drop (i + 1) = rest := by
      rw [List.drop_eq_getElem_cons hi] at hdrop
      exact ⟨by injection hdrop, by injection hdrop⟩
    have hc1 : s1.getD i ' ' = c1 := by
      rw [List.getD_eq_getElem?_getD, List.getElem?_eq_getElem hi]
      exact hget.1
    rw [List.enumFrom_cons, List.foldl_cons]
    have hstep : levRow s2 (rowOf s1 s2 i) i c1 = rowOf s1 s2 (i + 1) := by
      have hcells := levRowCells_correct s1 s2 i s2 0 rfl
      rw [List.drop_zero, dpVal_row_zero] at hcells
      have hrow : rowOf s1 s2 (i + 1) =
          dpVal s1 s2 (i + 1) 0 :: (rowOf s1 s2 (i + 1)).drop (0 + 1) := by
        conv_lhs => rw [← List.drop_zero (rowOf s1 s2 (i + 1))]
        rw [rowOf_drop_cons s1 s2 (i + 1) 0 (by omega)]
      rw [dpVal_row_zero] at hrow
      rw [levRow, ← hc1, hcells]
      exact hrow.symm
    rw [hstep, ih (i + 1) hget.2 (by omega)]

theorem levRows_eq (s1 s2 : List Char) :
    levRows s1 s2 = dpVal s1 s2 s1.length s2.length := by
  have hinit : List.range (s2.length + 1) = rowOf s1 s2 0 := by
    simp [rowOf, dpVal_col_zero]
  have hfold := levRows_fold_correct s1 s2 s1 0 rfl (by omega)
  rw [levRows, hinit]
  rw [show s1.enum = List.enumFrom 0 s1 from rfl, hfold]
  rw [rowOf, List.range_succ, List.map_append]
  simp only [List.map_cons, List.map_nil, List.getLastD_concat]

theorem cst_comm (a b : Char) : cst a b = cst b a := by
  rcases eq_or_ne a b with h | h
  · rw [cst, cst, if_pos h, if_pos h.symm]
  · rw [cst, cst, if_neg h, if_neg (Ne.symm h)]

/-- Edit distance is symmetric in its two arguments. -/
theorem lev_spec_comm : ∀ (n : Nat) (s t : List Char), s.length + t.length ≤ n →
    lev_spec s t = lev_spec t s := by
  intro n
  induction n with
  | zero =>
    intro s t h
    match s, t with
    | [], t => rw [lev_spec_nil_left, lev_spec_nil_right]
    | x :: s', [] => rw [lev_spec_nil_left, lev_spec_nil_right]
    | x :: s', y :: t' => simp at h
  | succ n ih =>
    intro s t h
    match s, t with
    | [], t => rw [lev_spec_nil_left, lev_spec_nil_right]
    | x :: s', [] => rw [lev_spec_nil_left, lev_spec_nil_right]
    | x :: s', y :: t' =>
      rw [lev_spec_cons_cons, lev_spec_cons_cons,
        ih s' (y :: t') (by simp at h ⊢; omega),
        ih (x :: s') t' (by simp at h ⊢; omega),
        ih s' t' (by simp at h ⊢; omega), cst_comm]
      omega

/-- The source's `levenshtein_distance` computes the Levenshtein distance. -/
theorem levenshtein_distance_eq (s1 s2 : List Char) :
    levenshtein_distance s1 s2 = lev_spec s1 s2 := by
  have hguard : ∀ a b : List Char, levGuard a b = lev_spec a b := by
    intro a b
    rw [levGuard]
    split_ifs with h
    · rw [List.length_eq_zero.mp h, lev_spec_nil_right]
    · rw [levRows_eq, dpVal_length]
  rw [levenshtein_distance]
  split_ifs with h
  · rw [hguard, lev_spec_comm (s1.length + s2.length) s2 s1 (by omega)]
  · exact hguard s1 s2

/-! ### Word-level error classification -/

/-- Python's `in` on strings: `needle` occurs as a contiguous substring of
`hay`. -/
def containsSub (needle : List Char) : List Char → Bool
  | [] => needle.isPrefixOf []
  | c :: t => needle.isPrefixOf (c :: t) || containsSub needle t

theorem isPrefixOf_iff : ∀ (n h : List Char),
    n.isPrefixOf h = true ↔ ∃ post, h = n ++ post := by
  intro n
  induction n with
  | nil =>
    intro h
    simp [List.isPrefixOf]
  | cons a n ih =>
    intro h
    cases h with
    | nil => simp [List.isPrefixOf]
    | cons b t =>
      simp only [List.isPrefixOf, Bool.and_eq_true, beq_iff_eq, ih]
      constructor
      · rintro ⟨rfl, post, rfl⟩
        exact ⟨post, rfl⟩
      · rintro ⟨post, heq⟩
        injection heq with h1 h2
        exact ⟨h1.symm, post, h2⟩

theorem containsSub_iff : ∀ (h n : List Char),
    containsSub n h = true ↔ ∃ pre post, h = pre ++ n ++ post := by
  intro h
  induction h with
  | nil =>
    intro n
    rw [containsSub, isPrefixOf_iff]
    constructor
    · rintro ⟨post, heq⟩
      exact ⟨[], post, heq⟩
    · rintro ⟨pre, post, heq⟩
      have h0 : pre ++ n ++ post = [] := heq.symm
      rw [List.append_eq_nil, List.append_eq_nil] at h0
      exact ⟨post, by simp [h0.1.2, h0.2]⟩
  | cons c t ih =>
    intro n
    rw [containsSub]
    simp only [Bool.or_eq_true, isPrefixOf_iff, ih]
    constructor
    · rintro (⟨post, heq⟩ | ⟨pre, post, heq⟩)
      · exact ⟨[], post, by simpa using heq⟩
      · exact ⟨c :: pre, post, by simp [heq]⟩
    · rintro ⟨pre, post, heq⟩
      cases pre with
      | nil =>
        left
        exact ⟨post, by simpa using heq⟩
      | cons x pre =>
        right
        injection heq with h1 h2
        exact ⟨pre, post, h2⟩

/-- `is_merge` from the source: at least two reference tokens, exactly one
hypothesis token, and the Levenshtein distance between the separator-free
concatenation `''.join(ref_words)` and `hyp_words[0]` at most `max_dist`
(default 2). -/
def is_merge (ref_words hyp_words : List (List Char)) (max_dist : Nat := 2) :
    Bool :=
  if ref_words.length < 2 ∨ hyp_words.length ≠ 1 then false
  else decide (levenshtein_distance ref_words.flatten (hyp_words.headD []) ≤ max_dist)

/-- `is_split` from the source: symmetric to `is_merge`. -/
def is_split (ref_words hyp_words : List (List Char)) (max_dist : Nat := 2) :
    Bool :=
  if ref_words.length ≠ 1 ∨ hyp_words.length < 2 then false
  else decide (levenshtein_distance (ref_words.headD []) hyp_words.flatten ≤ max_dist)

/-- `is_abbrev_expansion` from the source.  The Python float ratio `1.5` is
modelled exactly as the rational `1.5` (the comparison `len * 1.5 < len` is
exact for these magnitudes). -/
def is_abbrev_expansion (ref_word hyp_word : List Char) (ratio_min : ℚ := 1.5) :
    Bool :=
  if ref_word.length = 0 ∨ hyp_word.length = 0 then false
  else if decide ((ref_word.length : ℚ) * ratio_min < (hyp_word.length : ℚ)) &&
      containsSub ref_word (hyp_word.take (ref_word.length + 2)) then true
  else if decide ((hyp_word.length : ℚ) * ratio_min < (ref_word.length : ℚ)) &&
      containsSub hyp_word (ref_word.take (hyp_word.length + 2)) then true
  else false

theorem is_abbrev_expansion_iff (wr wh : List Char)
    (h1 : wr.length ≠ 0) (h2 : wh.length ≠ 0) :
    is_abbrev_expansion wr wh = true ↔
      ((wr.length : ℚ) * 1.5 < (wh.length : ℚ) ∧
        ∃ pre post, wh.take (wr.length + 2) = pre ++ wr ++ post) ∨
      ((wh.length : ℚ) * 1.5 < (wr.length : ℚ) ∧
        ∃ pre post, wr.take (wh.length + 2) = pre ++ wh ++ post) := by
  rw [is_abbrev_expansion, if_neg (by tauto)]
  split_ifs with hA hB
  · simp only [Bool.and_eq_true, decide_eq_true_eq, containsSub_iff] at hA
    simp only [true_iff]
    exact Or.inl hA
  · simp only [Bool.and_eq_true, decide_eq_true_eq, containsSub_iff] at hB
    simp only [true_iff]
    exact Or.inr hB
  · simp only [Bool.and_eq_true, decide_eq_true_eq, containsSub_iff] at hA hB
    simp only [false_iff]
    rintro (h | h)
    · exact hA h
    · exact hB h

/-- Increment one counter of a default-0 mapping (`stats[k] += 1`). -/
def bump {κ : Type} [DecidableEq κ] (s : κ → Nat) (k : κ) : κ → Nat :=
  fun q => if q = k then s q + 1 else s q

/-- An entry of the `examples` mapping of `classify_word_errors`: merge/split
examples store the token-list pair, lexical/abbreviation examples store the
single-token pair (the source appends tuples of either shape). -/
inductive ExampleEntry where
  | words : List (List Char) → List (List Char) → ExampleEntry
  | toks : List Char → List Char → ExampleEntry
deriving DecidableEq, Repr

/-- Append an example under key `k` (`examples[k].append(x)`). -/
def pushEx (e : String → List ExampleEntry) (k : String) (x : ExampleEntry) :
    String → List ExampleEntry :=
  fun q => if q = k then e q ++ [x] else e q

/-- Loop body of `classify_char_errors`. -/
def classify_char_step
    (acc : (String → Nat) × ((Option Char × Option Char) → Nat)) (op : EditOp) :
    (String → Nat) × ((Option Char × Option Char) → Nat) :=
  if op.operation = 'S' then
    (bump acc.1 "char_substitution", bump acc.2 (op.ref_char, op.hyp_char))
  else if op.operation = 'D' then (bump acc.1 "char_deletion", acc.2)
  else if op.operation = 'I' then (bump acc.1 "char_insertion", acc.2)
  else acc

/-- `classify_char_errors` from the source: tally substitution / deletion /
insertion counters and the substitution-pair counter. -/
def classify_char_errors (ops : List EditOp) :
    (String → Nat) × ((Option Char × Option Char) → Nat) :=
  ops.foldl classify_char_step (fun _ => 0, fun _ => 0)

/-- Loop body of `classify_word_errors`.  The final two branches mirror
`elif op.operation in ('D', 'I'): stats[f"word_{op.operation.lower()}"] += 1`. -/
def classify_word_step
    (acc : (String → Nat) × (String → List ExampleEntry)) (op : WordEditOp) :
    (String → Nat) × (String → List ExampleEntry) :=
  if op.operation = '=' then acc
  else if is_merge op.ref_words op.hyp_words then
    (bump acc.1 "word_merge",
      pushEx acc.2 "word_merge" (ExampleEntry.words op.ref_words op.hyp_words))
  else if is_split op.ref_words op.hyp_words then
    (bump acc.1 "word_split",
      pushEx acc.2 "word_split" (ExampleEntry.words op.ref_words op.hyp_words))
  else if op.ref_words.length = 1 ∧ op.hyp_words.length = 1 then
    if 3 ≤ (op.ref_words.headD []).length ∧ 3 ≤ (op.hyp_words.headD []).length then
      if is_abbrev_expansion (op.ref_words.headD []) (op.hyp_words.headD []) then
        (bump acc.1 "abbrev_expansion",
          pushEx acc.2 "abbrev_expansion"
            (ExampleEntry.toks (op.ref_words.headD []) (op.hyp_words.headD [])))
      else
        (bump acc.1 "lexical_substitution",
          pushEx acc.2 "lexical_substitution"
            (ExampleEntry.toks (op.ref_words.headD []) (op.hyp_words.headD [])))
    else acc
  else if op.operation = 'D' then (bump acc.1 "word_d", acc.2)
  else if op.operation = 'I' then (bump acc.1 "word_i", acc.2)
  else acc

/-- `classify_word_errors` from the source. -/
def classify_word_errors (word_ops : List WordEditOp) :
    (String → Nat) × (String → List ExampleEntry) :=
  word_ops.foldl classify_word_step (fun _ => 0, fun _ => [])

/-! ### Claims about the word-level classifier -/

/-- Claim C4: for a non-equal block, at least two reference tokens, exactly
one hypothesis token, and Levenshtein distance at most the default threshold 2
between the separator-free concatenation of the reference tokens and the
hypothesis token, yield a WordMerge classification (this check has first
priority); symmetrically, one reference token and at least two hypothesis
tokens with the analogous distance bound yield WordSplit. -/
theorem claim4_merge_split_rules
    (st : String → Nat) (ex : String → List ExampleEntry) (op : WordEditOp)
    (hne : op.operation ≠ '=') :
    (2 ≤ op.ref_words.length → op.hyp_words.length = 1 →
      lev_spec op.ref_words.flatten (op.hyp_words.headD []) ≤ 2 →
      (classify_word_step (st, ex) op).1 = bump st "word_merge") ∧
    (op.ref_words.length = 1 → 2 ≤ op.hyp_words.length →
      lev_spec (op.ref_words.headD []) op.hyp_words.flatten ≤ 2 →
      (classify_word_step (st, ex) op).1 = bump st "word_split") := by
  constructor
  · intro hlr hlh hdist
    have hmerge : is_merge op.ref_words op.hyp_words = true := by
      rw [is_merge, if_neg (by omega), levenshtein_distance_eq]
      exact decide_eq_true hdist
    rw [classify_word_step, if_neg hne, if_pos hmerge]
  · intro hlr hlh hdist
    have hmerge : is_merge op.ref_words op.hyp_words = false := by
      rw [is_merge, if_pos (by omega)]
    have hsplit : is_split op.ref_words op.hyp_words = true := by
      rw [is_split, if_neg (by omega), levenshtein_distance_eq]
      exact decide_eq_true hdist
    rw [classify_word_step, if_neg hne, if_neg (by simp [hmerge]), if_pos hsplit]

/-- Witness for claim C4: the spec's merge example `["do", "mu"]` vs
`["domu"]`, and the symmetric split example. -/
theorem claim4_witness :
    (classify_word_step ((fun _ => 0), (fun _ => []))
        ⟨[['d', 'o'], ['m', 'u']], [['d', 'o', 'm', 'u']], 'S'⟩).1 =
      bump (fun _ => 0) "word_merge" ∧
    (classify_word_step ((fun _ => 0), (fun _ => []))
        ⟨[['d', 'o', 'm', 'u']], [['d', 'o'], ['m', 'u']], 'S'⟩).1 =
      bump (fun _ => 0) "word_split" :=
  ⟨(claim4_merge_split_rules _ _ _ (by decide)).1 (by decide) (by decide) (by decide),
    (claim4_merge_split_rules _ _ _ (by decide)).2 (by decide) (by decide) (by decide)⟩

/-- Claim C5: for a non-equal block with exactly one token on each side, both
of length at least 3, the block is classified AbbreviationExpansion when the
length-ratio-plus-containment condition (in either direction) holds, and
LexicalSubstitution otherwise.  `hyp` counts as an expansion of `ref` when
`len(hyp) > 1.5 * len(ref)` and `ref` occurs as a substring of the first
`len(ref) + 2` characters of `hyp`. -/
theorem claim5_abbrev_lexical_rules
    (st : String → Nat) (ex : String → List ExampleEntry) (op : WordEditOp)
    (wr wh : List Char) (hne : op.operation ≠ '=')
    (hr : op.ref_words = [wr]) (hh : op.hyp_words = [wh])
    (h3r : 3 ≤ wr.length) (h3h : 3 ≤ wh.length) :
    ((((wr.length : ℚ) * 1.5 < (wh.length : ℚ) ∧
        ∃ pre post, wh.take (wr.length + 2) = pre ++ wr ++ post) ∨
      ((wh.length : ℚ) * 1.5 < (wr.length : ℚ) ∧
        ∃ pre post, wr.take (wh.length + 2) = pre ++ wh ++ post)) →
      (classify_word_step (st, ex) op).1 = bump st "abbrev_expansion") ∧
    (¬ (((wr.length : ℚ) * 1.5 < (wh.length : ℚ) ∧
        ∃ pre post, wh.take (wr.length + 2) = pre ++ wr ++ post) ∨
      ((wh.length : ℚ) * 1.5 < (wr.length : ℚ) ∧
        ∃ pre post, wr.take (wh.length + 2) = pre ++ wh ++ post)) →
      (classify_word_step (st, ex) op).1 = bump st "lexical_substitution") := by
  have hmerge : is_merge op.ref_words op.hyp_words = false := by
    rw [is_merge, if_pos (by simp [hr])]
  have hsplit : is_split op.ref_words op.hyp_words = false := by
    rw [is_split, if_pos (by simp [hh])]
  have hsingle : op.ref_words.length = 1 ∧ op.hyp_words.length = 1 := by
    simp [hr, hh]
  have hheads : op.ref_words.headD [] = wr ∧ op.hyp_words.headD [] = wh := by
    simp [hr, hh]
  have hlen : 3 ≤ (op.ref_words.headD []).length ∧
      3 ≤ (op.hyp_words.headD []).length := by
    rw [hheads.1, hheads.2]
    exact ⟨h3r, h3h⟩
  constructor
  · intro hcond
    have habbrev : is_abbrev_expansion (op.ref_words.headD [])
        (op.hyp_words.headD []) = true := by
      rw [hheads.1, hheads.2]
      exact (is_abbrev_expansion_iff wr wh (by omega) (by omega)).mpr hcond
    rw [classify_word_step, if_neg hne, if_neg (by simp [hmerge]),
      if_neg (by simp [hsplit]), if_pos hsingle, if_pos hlen, if_pos habbrev]
  · intro hcond
    have habbrev : is_abbrev_expansion (op.ref_words.headD [])
        (op.hyp_words.headD []) = false := by
      rw [hheads.1, hheads.2]
      rw [← Bool.not_eq_true]
      intro hab
      exact hcond ((is_abbrev_expansion_iff wr wh (by omega) (by omega)).mp hab)
    rw [classify_word_step, if_neg hne, if_neg (by simp [hmerge]),
      if_neg (by simp [hsplit]), if_pos hsingle, if_pos hlen,
      if_neg (by rw [habbrev]; simp)]

/-- Witness for claim C5: the spec's abbreviation example
`"kralj"`/`"kraljevstvo"` and lexical example `"dom"`/`"kuca"`. -/
theorem claim5_witness :
    (classify_word_step ((fun _ => 0), (fun _ => []))
        ⟨[['k', 'r', 'a', 'l', 'j']],
          [['k', 'r', 'a', 'l', 'j', 'e', 'v', 's', 't', 'v', 'o']], 'S'⟩).1 =
      bump (fun _ => 0) "abbrev_expansion" ∧
    (classify_word_step ((fun _ => 0), (fun _ => []))
        ⟨[['d', 'o', 'm']], [['k', 'u', 'c', 'a']], 'S'⟩).1 =
      bump (fun _ => 0) "lexical_substitution" := by
  constructor
  · exact (claim5_abbrev_lexical_rules _ _ _ _ _ (by decide) rfl rfl
      (by decide) (by decide)).1
      (Or.inl ⟨by norm_num, [], ['e', 'v'], by decide⟩)
  · exact (claim5_abbrev_lexical_rules _ _ _ _ _ (by decide) rfl rfl
      (by decide) (by decide)).2
      (by rintro (⟨hlt, -⟩ | ⟨hlt, -⟩) <;> norm_num at hlt)

/-- Claim C6 as amended: a non-equal block with exactly one token on each
side where either token is shorter than 3 characters is excluded from
lexical/abbreviation classification and increments no counter at all — it is
not counted in any residual bucket. -/
theorem claim6_short_single_token_blocks_uncounted
    (st : String → Nat) (ex : String → List ExampleEntry) (op : WordEditOp)
    (wr wh : List Char) (hne : op.operation ≠ '=')
    (hr : op.ref_words = [wr]) (hh : op.hyp_words = [wh])
    (hshort : wr.length < 3 ∨ wh.length < 3) :
    classify_word_step (st, ex) op = (st, ex) := by
  have hmerge : is_merge op.ref_words op.hyp_words = false := by
    rw [is_merge, if_pos (by simp [hr])]
  have hsplit : is_split op.ref_words op.hyp_words = false := by
    rw [is_split, if_pos (by simp [hh])]
  have hsingle : op.ref_words.length = 1 ∧ op.hyp_words.length = 1 := by
    simp [hr, hh]
  have hlen : ¬ (3 ≤ (op.ref_words.headD []).length ∧
      3 ≤ (op.hyp_words.headD []).length) := by
    simp only [hr, hh, List.headD_cons]
    omega
  rw [classify_word_step, if_neg hne, if_neg (by simp [hmerge]),
    if_neg (by simp [hsplit]), if_pos hsingle, if_neg hlen]

/-- Counterexample to claim C6 as stated: the single-token replace block
`["ab"]` vs `["cd"]` (both tokens shorter than 3) is not counted in the
residual `word_d`/`word_i` buckets — no counter at all is incremented. -/
theorem claim6_counterexample :
    (classify_word_errors [⟨[['a', 'b']], [['c', 'd']], 'S'⟩]).1 "word_d" = 0 ∧
      (classify_word_errors [⟨[['a', 'b']], [['c', 'd']], 'S'⟩]).1 "word_i" = 0 ∧
      (classify_word_errors [⟨[['a', 'b']], [['c', 'd']], 'S'⟩]).1 =
        (fun _ => 0) :=
  ⟨rfl, rfl, rfl⟩

/-- Witness for the amended claim C6. -/
theorem claim6_witness :
    classify_word_step ((fun _ => 0), (fun _ => []))
        ⟨[['a', 'b']], [['c', 'd']], 'S'⟩ =
      ((fun _ => 0), (fun _ => [])) :=
  claim6_short_single_token_blocks_uncounted _ _ _ _ _ (by decide) rfl rfl
    (Or.inl (by decide))

/-- Claim C10: a replace-tagged block with two or more tokens on both sides
(hence matching neither the merge nor the split shape) increments no counter:
the residual buckets only count blocks whose raw tag is `'D'` or `'I'`. -/
theorem claim10_multitoken_replace_dropped
    (st : String → Nat) (ex : String → List ExampleEntry) (op : WordEditOp)
    (hS : op.operation = 'S')
    (hr : 2 ≤ op.ref_words.length) (hh : 2 ≤ op.hyp_words.length) :
    classify_word_step (st, ex) op = (st, ex) := by
  have hmerge : is_merge op.ref_words op.hyp_words = false := by
    rw [is_merge, if_pos (by omega)]
  have hsplit : is_split op.ref_words op.hyp_words = false := by
    rw [is_split, if_pos (by omega)]
  rw [classify_word_step, if_neg (by simp [hS]), if_neg (by simp [hmerge]),
    if_neg (by simp [hsplit]), if_neg (by omega), if_neg (by simp [hS]),
    if_neg (by simp [hS])]

/-- Witness for claim C10. -/
theorem claim10_witness :
    classify_word_step ((fun _ => 0), (fun _ => []))
        ⟨[['a'], ['b']], [['c'], ['d']], 'S'⟩ =
      ((fun _ => 0), (fun _ => [])) :=
  claim10_multitoken_replace_dropped _ _ _ rfl (by decide) (by decide)

/-! ### `word_align`: difflib `SequenceMatcher(None, ref_str, hyp_str)` -/

/-- Position-wise character equality of two strings; both positions are in
range on every comparison the source performs (out of range compares false). -/
def eqAt (a b : List Char) (i j : Nat) : Bool :=
  match a[i]?, b[j]? with
  | some x, some y => x == y
  | _, _ => false

/-- `b2j` of `SequenceMatcher(None, a, b)`: the ascending list of positions of
`c` in `b`.  With `isjunk=None` there is no junk; autojunk removes "popular"
elements (more than `len(b) // 100 + 1` occurrences) when `len(b) >= 200`. -/
def b2j (b : List Char) (c : Char) : List Nat :=
  if 200 ≤ b.length ∧
      b.length / 100 + 1 < ((List.range b.length).filter (fun j => b[j]? = some c)).length then
    []
  else (List.range b.length).filter (fun j => b[j]? = some c)

/-- Inner loop of `find_longest_match` over the position list of `a[i]` in
`b` (already restricted to `[blo, bhi)`, which renders the source's
`continue`/`break` over the ascending list): `k = j2len.get(j-1, 0) + 1` is
recorded in `newj2len[j]`, and the best block is updated on `k > bestsize`
with `besti = i-k+1`, `bestj = j-k+1`. -/
def flmInner (i : Nat) :
    List Nat → (Nat → Nat) → (Nat → Nat) → Nat × Nat × Nat →
      (Nat → Nat) × (Nat × Nat × Nat)
  | [], _, newj2len, best => (newj2len, best)
  | j :: js, j2len, newj2len, best =>
    let k := (if j = 0 then 0 else j2len (j - 1)) + 1
    flmInner i js j2len (fun q => if q = j then k else newj2len q)
      (if best.2.2 < k then (i + 1 - k, j + 1 - k, k) else best)

/-- Outer loop of `find_longest_match` over `i in range(alo, ahi)`;
`j2len` starts over (`newj2len = {}`) at each `i`. -/
def flmOuter (a : List Char) (b2jf : Char → List Nat) (blo bhi : Nat) :
    List Nat → (Nat → Nat) → Nat × Nat × Nat → Nat × Nat × Nat
  | [], _, best => best
  | i :: is, j2len, best =>
    let js := (b2jf (a.getD i ' ')).filter (fun j => blo ≤ j ∧ j < bhi)
    let r := flmInner i js j2len (fun _ => 0) best
    flmOuter a b2jf blo bhi is r.1 r.2

/-- The first extension loop of `find_longest_match`: grow the match to the
left while the adjacent characters agree (`isbjunk` is always false since
`isjunk=None`).  Each step decreases `besti` (which stays above `alo ≥ 0`),
so fuel `besti` suffices. -/
def extendLeft (a b : List Char) (alo blo : Nat) :
    Nat → Nat × Nat × Nat → Nat × Nat × Nat
  | 0, best => best
  | fuel + 1, (besti, bestj, bestsize) =>
    if alo < besti ∧ blo < bestj ∧ eqAt a b (besti - 1) (bestj - 1) = true then
      extendLeft a b alo blo fuel (besti - 1, bestj - 1, bestsize + 1)
    else (besti, bestj, bestsize)

/-- The second extension loop of `find_longest_match`: grow the match to the
right.  Each step increases `besti + bestsize` (bounded by `ahi`), so fuel
`ahi` suffices. -/
def extendRight (a b : List Char) (ahi bhi : Nat) :
    Nat → Nat × Nat × Nat → Nat × Nat × Nat
  | 0, best => best
  | fuel + 1, (besti, bestj, bestsize) =>
    if besti + bestsize < ahi ∧ bestj + bestsize < bhi ∧
        eqAt a b (besti + bestsize) (bestj + bestsize) = true then
      extendRight a b ahi bhi fuel (besti, bestj, bestsize + 1)
    else (besti, bestj, bestsize)

/-- `find_longest_match` of `SequenceMatcher(None, a, b)`.  The final two
junk-extension loops of the source never run because `bjunk` is empty when
`isjunk=None`, so they are omitted. -/
def find_longest_match (a b : List Char) (b2jf : Char → List Nat)
    (alo ahi blo bhi : Nat) : Nat × Nat × Nat :=
  let best0 := flmOuter a b2jf blo bhi (List.range' alo (ahi - alo))
    (fun _ => 0) (alo, blo, 0)
  let best1 := extendLeft a b alo blo best0.1 best0
  extendRight a b ahi bhi ahi best1

/-- The recursive splitting of `get_matching_blocks`.  The source drives it
with an explicit LIFO queue; since the collected blocks are sorted
afterwards and the queue entries are processed independently, the queue is
rendered as this recursion.  Each recursive call strictly shrinks the
interval pair, so fuel `len(a) + len(b) + 1` suffices. -/
def mblocks (a b : List Char) (b2jf : Char → List Nat) :
    Nat → Nat → Nat → Nat → Nat → List (Nat × Nat × Nat)
  | 0, _, _, _, _ => []
  | fuel + 1, alo, ahi, blo, bhi =>
    let m := find_longest_match a b b2jf alo ahi blo bhi
    if m.2.2 = 0 then []
    else
      (if alo < m.1 ∧ blo < m.2.1 then
        mblocks a b b2jf fuel alo m.1 blo m.2.1 else []) ++
      [m] ++
      (if m.1 + m.2.2 < ahi ∧ m.2.1 + m.2.2 < bhi then
        mblocks a b b2jf fuel (m.1 + m.2.2) ahi (m.2.1 + m.2.2) bhi else [])

/-- Lexicographic order on `(i, j, size)` triples, as used by
`matching_blocks.sort()`. -/
def tripleLe (x y : Nat × Nat × Nat) : Bool :=
  decide (x.1 < y.1 ∨ (x.1 = y.1 ∧
    (x.2.1 < y.2.1 ∨ (x.2.1 = y.2.1 ∧ x.2.2 ≤ y.2.2))))

/-- Sorting for `matching_blocks.sort()`: a simple insertion sort (for the
total lexicographic order any correct sort produces the same list, so the
algorithm choice is immaterial). -/
def insertSorted (x : Nat × Nat × Nat) :
    List (Nat × Nat × Nat) → List (Nat × Nat × Nat)
  | [] => [x]
  | y :: ys => if tripleLe x y then x :: y :: ys else y :: insertSorted x ys

def sortTriples : List (Nat × Nat × Nat) → List (Nat × Nat × Nat)
  | [] => []
  | x :: xs => insertSorted x (sortTriples xs)

/-- The adjacent-block coalescing loop of `get_matching_blocks`. -/
def mergeAdjacent : Nat × Nat × Nat → List (Nat × Nat × Nat) →
    List (Nat × Nat × Nat)
  | (i1, j1, k1), [] => if k1 ≠ 0 then [(i1, j1, k1)] else []
  | (i1, j1, k1), (i2, j2, k2) :: rest =>
    if i1 + k1 = i2 ∧ j1 + k1 = j2 then mergeAdjacent (i1, j1, k1 + k2) rest
    else (if k1 ≠ 0 then [(i1, j1, k1)] else []) ++ mergeAdjacent (i2, j2, k2) rest

/-- `get_matching_blocks` of `SequenceMatcher(None, a, b)`: split, sort,
coalesce adjacent blocks, and append the `(la, lb, 0)` sentinel. -/
def get_matching_blocks (a b : List Char) : List (Nat × Nat × Nat) :=
  mergeAdjacent (0, 0, 0)
    (sortTriples (mblocks a b (b2j b) (a.length + b.length + 1)
      0 a.length 0 b.length)) ++ [(a.length, b.length, 0)]

/-- The loop of `get_opcodes`, producing `(tag, i1, i2, j1, j2)` tuples. -/
def opcodesLoop : Nat → Nat → List (Nat × Nat × Nat) →
    List (String × Nat × Nat × Nat × Nat)
  | _, _, [] => []
  | i, j, (ai, bj, size) :: rest =>
    (if i < ai ∧ j < bj then [("replace", i, ai, j, bj)]
     else if i < ai then [("delete", i, ai, j, bj)]
     else if j < bj then [("insert", i, ai, j, bj)]
     else []) ++
    (if size ≠ 0 then [("equal", ai, ai + size, bj, bj + size)] else []) ++
    opcodesLoop (ai + size) (bj + size) rest

/-- `get_opcodes` of `SequenceMatcher(None, a, b)`. -/
def get_opcodes (a b : List Char) : List (String × Nat × Nat × Nat × Nat) :=
  opcodesLoop 0 0 (get_matching_blocks a b)

/-- Python whitespace (ASCII).  The classifier's inputs contain only the
space character as whitespace. -/
def pyWs (c : Char) : Bool :=
  c == ' ' || c == '\t' || c == '\n' || c == '\r' || c == '\x0b' || c == '\x0c'

/-- `str.split()` with no separator: skip whitespace runs, collect maximal
non-whitespace runs.  Each step consumes at least one character, so fuel
`s.length` suffices. -/
def splitWsFuel : Nat → List Char → List (List Char)
  | 0, _ => []
  | _ + 1, [] => []
  | fuel + 1, c :: cs =>
    if pyWs c then splitWsFuel fuel cs
    else (c :: cs.takeWhile (fun d => !pyWs d)) ::
      splitWsFuel fuel (cs.dropWhile (fun d => !pyWs d))

def splitWs (s : List Char) : List (List Char) := splitWsFuel s.length s

/-- `' '.join(words)`. -/
def joinSpace (words : List (List Char)) : List Char :=
  List.intercalate [' '] words

/-- `word_align` from the source: join each token sequence with single
spaces, take the opcodes of `SequenceMatcher(None, ref_str, hyp_str)`, and
turn each opcode into a `WordEditOp` holding the whitespace-split slices
(`delete` keeps only the reference side, `insert` only the hypothesis side;
an unrecognized tag appends nothing, mirroring the `if`/`elif` chain). -/
def word_align (ref_words hyp_words : List (List Char)) : List WordEditOp :=
  let ref_str := joinSpace ref_words
  let hyp_str := joinSpace hyp_words
  (get_opcodes ref_str hyp_str).filterMap (fun tc =>
    let ref_slice := splitWs ((ref_str.take tc.2.2.1).drop tc.2.1)
    let hyp_slice := splitWs ((hyp_str.take tc.2.2.2.2).drop tc.2.2.2.1)
    if tc.1 = "equal" then some ⟨ref_slice, hyp_slice, '='⟩
    else if tc.1 = "delete" then some ⟨ref_slice, [], 'D'⟩
    else if tc.1 = "insert" then some ⟨[], hyp_slice, 'I'⟩
    else if tc.1 = "replace" then some ⟨ref_slice, hyp_slice, 'S'⟩
    else none)

theorem splitWsFuel_nil_iff : ∀ (f : Nat) (s : List Char), s.length ≤ f →
    (splitWsFuel f s = [] ↔ s.all pyWs = true) := by
  intro f
  induction f with
  | zero =>
    intro s h
    obtain rfl : s = [] := List.length_eq_zero.mp (by omega)
    simp [splitWsFuel]
  | succ f ih =>
    intro s h
    cases s with
    | nil => simp [splitWsFuel]
    | cons c cs =>
      rw [splitWsFuel]
      split_ifs with hc
      · rw [ih cs (by simp at h; omega)]
        simp [List.all_cons, hc]
      · simp only [List.all_cons]
        rw [Bool.not_eq_true] at hc
        simp [hc]

theorem splitWs_nil_iff (s : List Char) : splitWs s = [] ↔ s.all pyWs = true :=
  splitWsFuel_nil_iff s.length s le_rfl

/-- A Python slice `l[i1:i2]` is a contiguous piece of `l`. -/
theorem slice_decomp (l : List Char) (i1 i2 : Nat) :
    ∃ pre post, l = pre ++ (l.take i2).drop i1 ++ post := by
  refine ⟨(l.take i2).take i1, l.drop i2, ?_⟩
  conv_lhs => rw [← List.take_append_drop i2 l]
  conv_lhs => rw [← List.take_append_drop i1 (l.take i2)]

/-- Counterexample to claim C3 as stated: aligning the token lists
`["a", "b"]` and `["ab"]` produces a Delete block whose `ref_words` and
`hyp_words` are BOTH empty — the block spans only the space separator of
the joined reference string. -/
theorem claim3_counterexample :
    word_align [['a'], ['b']] [['a', 'b']] =
      [⟨[['a']], [['a']], '='⟩, ⟨[], [], 'D'⟩, ⟨[['b']], [['b']], '='⟩] := by decide

/-- Claim C3 as amended: every WordEdit block's token lists are the
whitespace-splits of contiguous slices of the space-joined token strings,
and both token lists are empty simultaneously only when both underlying
slices consist purely of whitespace (as happens when a block boundary
isolates the space separator); a slice with any non-whitespace character
yields a non-empty token list on its side. -/
theorem claim3_amended_blocks (rtoks htoks : List (List Char)) :
    ∀ op ∈ word_align rtoks htoks,
      ∃ rs hs : List Char,
        (∃ pre post, joinSpace rtoks = pre ++ rs ++ post) ∧
        (∃ pre post, joinSpace htoks = pre ++ hs ++ post) ∧
        op.ref_words = splitWs rs ∧ op.hyp_words = splitWs hs ∧
        (op.ref_words = [] ∧ op.hyp_words = [] →
          rs.all pyWs = true ∧ hs.all pyWs = true) := by
  intro op hop
  simp only [word_align] at hop
  obtain ⟨tc, htc, hf⟩ := List.mem_filterMap.mp hop
  split_ifs at hf with h1 h2 h3 h4
  · injection hf with hf
    subst hf
    refine ⟨((joinSpace rtoks).take tc.2.2.1).drop tc.2.1,
      ((joinSpace htoks).take tc.2.2.2.2).drop tc.2.2.2.1,
      slice_decomp _ _ _, slice_decomp _ _ _, rfl, rfl, ?_⟩
    rintro ⟨he1, he2⟩
    exact ⟨(splitWs_nil_iff _).mp he1, (splitWs_nil_iff _).mp he2⟩
  · injection hf with hf
    subst hf
    refine ⟨((joinSpace rtoks).take tc.2.2.1).drop tc.2.1, [],
      slice_decomp _ _ _, ⟨[], joinSpace htoks, rfl⟩, rfl, rfl, ?_⟩
    rintro ⟨he1, he2⟩
    exact ⟨(splitWs_nil_iff _).mp he1, rfl⟩
  · injection hf with hf
    subst hf
    refine ⟨[], ((joinSpace htoks).take tc.2.2.2.2).drop tc.2.2.2.1,
      ⟨[], joinSpace rtoks, rfl⟩, slice_decomp _ _ _, rfl, rfl, ?_⟩
    rintro ⟨he1, he2⟩
    exact ⟨rfl, (splitWs_nil_iff _).mp he2⟩
  · injection hf with hf
    subst hf
    refine ⟨((joinSpace rtoks).take tc.2.2.1).drop tc.2.1,
      ((joinSpace htoks).take tc.2.2.2.2).drop tc.2.2.2.1,
      slice_decomp _ _ _, slice_decomp _ _ _, rfl, rfl, ?_⟩
    rintro ⟨he1, he2⟩
    exact ⟨(splitWs_nil_iff _).mp he1, (splitWs_nil_iff _).mp he2⟩

/-- Witness for the amended claim C3, at the counterexample's input. -/
theorem claim3_amended_witness :
    ∃ rs hs : List Char,
      (∃ pre post, joinSpace [['a'], ['b']] = pre ++ rs ++ post) ∧
      (∃ pre post, joinSpace [['a', 'b']] = pre ++ hs ++ post) ∧
      (WordEditOp.mk [] [] 'D').ref_words = splitWs rs ∧
      (WordEditOp.mk [] [] 'D').hyp_words = splitWs hs ∧
      ((WordEditOp.mk [] [] 'D').ref_words = [] ∧
          (WordEditOp.mk [] [] 'D').hyp_words = [] →
        rs.all pyWs = true ∧ hs.all pyWs = true) :=
  claim3_amended_blocks [['a'], ['b']] [['a', 'b']] ⟨[], [], 'D'⟩ (by decide)

/-! ### Page parsing and orchestration (`parse_pages`, `analyze_pages`) -/

/-- `str.strip()`: remove leading and trailing whitespace. -/
def pyStrip (s : List Char) : List Char :=
  ((s.dropWhile (fun c => pyWs c)).reverse.dropWhile (fun c => pyWs c)).reverse

/-- Index of the last occurrence of `c` in `l`, if any. -/
def lastIdxOf (c : Char) : List Char → Option Nat
  | [] => none
  | x :: xs =>
    match lastIdxOf c xs with
    | some k => some (k + 1)
    | none => if x = c then some 0 else none

/-- Match the separator alternative `\n\s*\n` at the head of the input:
a newline, a greedy whitespace run, then (after backtracking) a final
newline.  It succeeds iff the whitespace run following the first newline
contains another newline, and consumes through the last such newline.
Returns the number of characters consumed. -/
def matchSep1 : List Char → Option Nat
  | '\n' :: rest =>
    match lastIdxOf '\n' (rest.takeWhile (fun c => pyWs c)) with
    | some k => some (k + 2)
    | none => none
  | _ => none

/-- Match the separator alternative `\n\d+\.\s*\n` at the head of the
input (newline, digits, a dot, greedy whitespace, a final newline after
backtracking). -/
def matchSep2 : List Char → Option Nat
  | '\n' :: rest =>
    let ds := rest.takeWhile (fun c => c.isDigit)
    if ds.isEmpty then none
    else
      match rest.drop ds.length with
      | '.' :: rest2 =>
        match lastIdxOf '\n' (rest2.takeWhile (fun c => pyWs c)) with
        | some k => some (ds.length + k + 3)
        | none => none
      | _ => none
  | _ => none

/-- The page-separator pattern `\n\s*\n|\n\d+\.\s*\n`; regex
alternation prefers the first alternative. -/
def matchSep (s : List Char) : Option Nat :=
  match matchSep1 s with
  | some n => some n
  | none => matchSep2 s

/-- The scan of `re.split`: at each position try the separator pattern;
on a match of `n ≥ 2` characters emit the piece collected so far and resume
after the match, otherwise advance one character.  Every step consumes at
least one character, so fuel `s.length` suffices. -/
def reSplitFuel : Nat → List Char → List Char → List (List Char)
  | 0, acc, _ => [acc.reverse]
  | _ + 1, acc, [] => [acc.reverse]
  | fuel + 1, acc, c :: rest =>
    match matchSep (c :: rest) with
    | some n => acc.reverse :: reSplitFuel fuel [] ((c :: rest).drop n)
    | none => reSplitFuel fuel (c :: acc) rest

def reSplitPages (s : List Char) : List (List Char) :=
  reSplitFuel s.length [] s

/-- `parse_pages` from the source: split the stripped text on the
page-separator pattern, strip each piece, and keep the non-empty ones. -/
def parse_pages (text : List Char) : List (List Char) :=
  ((reSplitPages (pyStrip text)).map pyStrip).filter (fun p => p ≠ [])

/-- A row of the error log (`error_row` dict in `analyze_pages`). -/
structure ErrorRow where
  page : Nat
  ref_context : List Char
  hyp_context : List Char
  error_type : Char
deriving DecidableEq, Repr

/-- Pointwise addition of counters: `for k, v in t.items(): s[k] += v`
(absent keys carry 0, so iterating the finitely-supported `t` is pointwise
addition); also `Counter.update`. -/
def addCounts {κ : Type} (s t : κ → Nat) : κ → Nat := fun k => s k + t k

/-- The body of the per-page loop of `analyze_pages`: character alignment and
classification, word alignment and classification, and the page's error rows
(each non-equal word op, tagged with the 1-based page index and space-joined
contexts). -/
def analyze_page_step (ref_pages hyp_pages : List (List Char))
    (acc : (String → Nat) × List ErrorRow × ((Option Char × Option Char) → Nat))
    (page_idx : Nat) :
    (String → Nat) × List ErrorRow × ((Option Char × Option Char) → Nat) :=
  let ref_page := ref_pages.getD page_idx []
  let hyp_page := hyp_pages.getD page_idx []
  let char_ops := levenshtein_align ref_page hyp_page
  let cr := classify_char_errors char_ops
  let word_ops := word_align (splitWs ref_page) (splitWs hyp_page)
  let wr := classify_word_errors word_ops
  let page_errors := word_ops.filterMap (fun op =>
    if op.operation ≠ '=' then
      some (ErrorRow.mk (page_idx + 1) (joinSpace op.ref_words)
        (joinSpace op.hyp_words) op.operation)
    else none)
  (addCounts (addCounts acc.1 cr.1) wr.1, acc.2.1 ++ page_errors,
    addCounts acc.2.2 cr.2)

/-- The page loop of `analyze_pages`, after the input files have been read
and split into pages: `for page_idx in range(min_pages)`. -/
def analyze_pages_core (ref_pages hyp_pages : List (List Char)) :
    (String → Nat) × List ErrorRow × ((Option Char × Option Char) → Nat) :=
  (List.range (min ref_pages.length hyp_pages.length)).foldl
    (analyze_page_step ref_pages hyp_pages) (fun _ => 0, [], fun _ => 0)

/-- `analyze_pages` from the source.  The two `open(...).read()` calls are
modelled by `Option` inputs, `none` standing for a raised
`FileNotFoundError`; the `except` branch prints and `return {}, [], {}`. -/
def analyze_pages (ref_text hyp_text : Option (List Char)) :
    (String → Nat) × List ErrorRow × ((Option Char × Option Char) → Nat) :=
  match ref_text, hyp_text with
  | some rt, some ht => analyze_pages_core (parse_pages rt) (parse_pages ht)
  | _, _ => (fun _ => 0, [], fun _ => 0)

/-- `total_chars_ref` as computed in `save_outputs`. -/
def total_chars_ref (stats : String → Nat) : Nat :=
  stats "char_substitution" + stats "char_deletion"

/-- `total_chars_hyp` as computed in `save_outputs`. -/
def total_chars_hyp (stats : String → Nat) : Nat :=
  stats "char_substitution" + stats "char_insertion"

/-- Number of edits carrying a given operation tag. -/
def countTag (c : Char) (ops : List EditOp) : Nat :=
  (ops.filter (fun op => op.operation == c)).length

theorem getD_take_of_lt (l : List (List Char)) (m i : Nat) (h : i < m) :
    (l.take m).getD i [] = l.getD i [] := by
  rw [List.getD_eq_getElem?_getD, List.getD_eq_getElem?_getD,
    List.getElem?_take_of_lt h]

/-- Claim C7: the orchestrator's result depends only on the first
`min(len(ref_pages), len(hyp_pages))` pages (surplus pages on either side
are silently ignored), and every record of the error log carries a 1-based
page index that is at most that minimum. -/
theorem claim7_min_pages_and_index_bound (ref_pages hyp_pages : List (List Char)) :
    analyze_pages_core ref_pages hyp_pages =
      analyze_pages_core
        (ref_pages.take (min ref_pages.length hyp_pages.length))
        (hyp_pages.take (min ref_pages.length hyp_pages.length)) ∧
    ∀ e ∈ (analyze_pages_core ref_pages hyp_pages).2.1,
      1 ≤ e.page ∧ e.page ≤ min ref_pages.length hyp_pages.length := by
  constructor
  · have hlen : min (ref_pages.take (min ref_pages.length hyp_pages.length)).length
        (hyp_pages.take (min ref_pages.length hyp_pages.length)).length =
        min ref_pages.length hyp_pages.length := by
      simp [List.length_take]
    rw [analyze_pages_core, analyze_pages_core, hlen]
    apply List.foldl_ext
    intro acc i hi
    rw [List.mem_range] at hi
    simp only [analyze_page_step]
    rw [getD_take_of_lt ref_pages _ i (by omega),
      getD_take_of_lt hyp_pages _ i (by omega)]
  · have hgen : ∀ (idxs : List Nat)
        (acc : (String → Nat) × List ErrorRow × ((Option Char × Option Char) → Nat)),
        (∀ i ∈ idxs, i < min ref_pages.length hyp_pages.length) →
        (∀ e ∈ acc.2.1, 1 ≤ e.page ∧
          e.page ≤ min ref_pages.length hyp_pages.length) →
        ∀ e ∈ (idxs.foldl (analyze_page_step ref_pages hyp_pages) acc).2.1,
          1 ≤ e.page ∧ e.page ≤ min ref_pages.length hyp_pages.length := by
      intro idxs
      induction idxs with
      | nil => intro acc _ hacc e he; exact hacc e he
      | cons i idxs ih =>
        intro acc hidx hacc e he
        rw [List.foldl_cons] at he
        refine ih _ (fun j hj => hidx j (by simp [hj])) ?_ e he
        intro e' he'
        have hstep : (analyze_page_step ref_pages hyp_pages acc i).2.1 =
            acc.2.1 ++ (word_align (splitWs (ref_pages.getD i []))
              (splitWs (hyp_pages.getD i []))).filterMap
                (fun op => if op.operation ≠ '=' then
                  some (ErrorRow.mk (i + 1) (joinSpace op.ref_words)
                    (joinSpace op.hyp_words) op.operation)
                else none) := rfl
        rw [hstep, List.mem_append] at he'
        rcases he' with h | h
        · exact hacc e' h
        · obtain ⟨op, hop, hsome⟩ := List.mem_filterMap.mp h
          have hi : i < min ref_pages.length hyp_pages.length := hidx i (by simp)
          split_ifs at hsome
          injection hsome with hsome
          subst hsome
          show 1 ≤ i + 1 ∧ i + 1 ≤ min ref_pages.length hyp_pages.length
          omega
    exact hgen (List.range (min ref_pages.length hyp_pages.length)) _
      (fun i hi => List.mem_range.mp hi)
      (fun e he => absurd he (List.not_mem_nil e))

/-- Witness for claim C7: page lists `["ab"]` and `["cd"]`; the single error
row carries page index 1 = min 1 1. -/
theorem claim7_witness :
    1 ≤ (ErrorRow.mk 1 ['a', 'b'] ['c', 'd'] 'S').page ∧
      (ErrorRow.mk 1 ['a', 'b'] ['c', 'd'] 'S').page ≤
        min [['a', 'b']].length [['c', 'd']].length :=
  (claim7_min_pages_and_index_bound [['a', 'b']] [['c', 'd']]).2
    (ErrorRow.mk 1 ['a', 'b'] ['c', 'd'] 'S') (by decide)

/-- Claim C8: when either source document cannot be read (`FileNotFoundError`
on either `open`, modelled by a `none` input), `analyze_pages` returns the
fully empty result triple: empty statistics, empty error log, empty
substitution table. -/
theorem claim8_missing_input_empty_results (ref_text hyp_text : Option (List Char))
    (h : ref_text = none ∨ hyp_text = none) :
    analyze_pages ref_text hyp_text = (fun _ => 0, [], fun _ => 0) := by
  rcases h with rfl | rfl
  · cases hyp_text <;> rfl
  · cases ref_text <;> rfl

/-- Witness for claim C8. -/
theorem claim8_witness :
    analyze_pages none (some ['x']) = (fun _ => 0, [], fun _ => 0) :=
  claim8_missing_input_empty_results none (some ['x']) (Or.inl rfl)

theorem bump_self {κ : Type} [DecidableEq κ] (s : κ → Nat) (k : κ) :
    bump s k k = s k + 1 := by
  simp [bump]

theorem countTag_cons (c : Char) (op : EditOp) (ops : List EditOp) :
    countTag c (op :: ops) =
      (if op.operation = c then 1 else 0) + countTag c ops := by
  rw [countTag, countTag, List.filter_cons]
  by_cases h : op.operation = c
  · rw [if_pos (by simp [h]), if_pos h, List.length_cons]
    omega
  · rw [if_neg (by simp [h]), if_neg h]
    omega

theorem classify_char_step_keys (acc) (op : EditOp) :
    (classify_char_step acc op).1 "char_substitution" =
        acc.1 "char_substitution" + (if op.operation = 'S' then 1 else 0) ∧
      (classify_char_step acc op).1 "char_deletion" =
        acc.1 "char_deletion" + (if op.operation = 'D' then 1 else 0) ∧
      (classify_char_step acc op).1 "char_insertion" =
        acc.1 "char_insertion" + (if op.operation = 'I' then 1 else 0) := by
  rw [classify_char_step]
  split_ifs with h1 h2 h3 <;> refine ⟨?_, ?_, ?_⟩ <;> simp_all [bump]

theorem classify_char_fold (ops : List EditOp) :
    ∀ acc,
      (ops.foldl classify_char_step acc).1 "char_substitution" =
          acc.1 "char_substitution" + countTag 'S' ops ∧
        (ops.foldl classify_char_step acc).1 "char_deletion" =
          acc.1 "char_deletion" + countTag 'D' ops ∧
        (ops.foldl classify_char_step acc).1 "char_insertion" =
          acc.1 "char_insertion" + countTag 'I' ops := by
  induction ops with
  | nil =>
    intro acc
    simp [countTag]
  | cons op ops ih =>
    intro acc
    rw [List.foldl_cons]
    obtain ⟨ih1, ih2, ih3⟩ := ih (classify_char_step acc op)
    obtain ⟨hs1, hs2, hs3⟩ := classify_char_step_keys acc op
    rw [ih1, ih2, ih3, hs1, hs2, hs3, countTag_cons, countTag_cons, countTag_cons]
    exact ⟨Nat.add_assoc _ _ _, Nat.add_assoc _ _ _, Nat.add_assoc _ _ _⟩

theorem classify_word_fold_char_keys (K : String)
    (hK : K = "char_substitution" ∨ K = "char_deletion" ∨ K = "char_insertion") :
    ∀ (ops : List WordEditOp) acc,
      (ops.foldl classify_word_step acc).1 K = acc.1 K := by
  intro ops
  induction ops with
  | nil =>
    intro acc
    rfl
  | cons op ops ih =>
    intro acc
    rw [List.foldl_cons, ih]
    rw [classify_word_step]
    split_ifs <;> rcases hK with rfl | rfl | rfl <;> simp [bump]

theorem analyze_page_step_char_keys (r h : List (List Char)) (acc) (i : Nat) :
    (analyze_page_step r h acc i).1 "char_substitution" =
        acc.1 "char_substitution" +
          countTag 'S' (levenshtein_align (r.getD i []) (h.getD i [])) ∧
      (analyze_page_step r h acc i).1 "char_deletion" =
        acc.1 "char_deletion" +
          countTag 'D' (levenshtein_align (r.getD i []) (h.getD i [])) ∧
      (analyze_page_step r h acc i).1 "char_insertion" =
        acc.1 "char_insertion" +
          countTag 'I' (levenshtein_align (r.getD i []) (h.getD i [])) := by
  obtain ⟨hc1, hc2, hc3⟩ :=
    classify_char_fold (levenshtein_align (r.getD i []) (h.getD i []))
      (fun _ => 0, fun _ => 0)
  have hstep : (analyze_page_step r h acc i).1 =
      addCounts (addCounts acc.1
        (classify_char_errors (levenshtein_align (r.getD i []) (h.getD i []))).1)
        (classify_word_errors (word_align (splitWs (r.getD i []))
          (splitWs (h.getD i [])))).1 := rfl
  have hw1 := classify_word_fold_char_keys "char_substitution" (Or.inl rfl)
    (word_align (splitWs (r.getD i [])) (splitWs (h.getD i [])))
    (fun _ => 0, fun _ => [])
  have hw2 := classify_word_fold_char_keys "char_deletion" (Or.inr (Or.inl rfl))
    (word_align (splitWs (r.getD i [])) (splitWs (h.getD i [])))
    (fun _ => 0, fun _ => [])
  have hw3 := classify_word_fold_char_keys "char_insertion" (Or.inr (Or.inr rfl))
    (word_align (splitWs (r.getD i [])) (splitWs (h.getD i [])))
    (fun _ => 0, fun _ => [])
  rw [hstep]
  simp only [addCounts, classify_char_errors, classify_word_errors]
  rw [hc1, hc2, hc3, hw1, hw2, hw3]
  refine ⟨?_, ?_, ?_⟩ <;> simp

theorem analyze_core_char_keys (r h : List (List Char)) :
    ∀ (idxs : List Nat) acc,
      (idxs.foldl (analyze_page_step r h) acc).1 "char_substitution" =
          acc.1 "char_substitution" + (idxs.map (fun i =>
            countTag 'S' (levenshtein_align (r.getD i []) (h.getD i [])))).sum ∧
        (idxs.foldl (analyze_page_step r h) acc).1 "char_deletion" =
          acc.1 "char_deletion" + (idxs.map (fun i =>
            countTag 'D' (levenshtein_align (r.getD i []) (h.getD i [])))).sum ∧
        (idxs.foldl (analyze_page_step r h) acc).1 "char_insertion" =
          acc.1 "char_insertion" + (idxs.map (fun i =>
            countTag 'I' (levenshtein_align (r.getD i []) (h.getD i [])))).sum := by
  intro idxs
  induction idxs with
  | nil =>
    intro acc
    simp
  | cons i idxs ih =>
    intro acc
    rw [List.foldl_cons]
    obtain ⟨ih1, ih2, ih3⟩ := ih (analyze_page_step r h acc i)
    obtain ⟨hs1, hs2, hs3⟩ := analyze_page_step_char_keys r h acc i
    rw [ih1, ih2, ih3, hs1, hs2, hs3]
    simp only [List.map_cons, List.sum_cons]
    exact ⟨Nat.add_assoc _ _ _, Nat.add_assoc _ _ _, Nat.add_assoc _ _ _⟩

/-- Claim C9: the derived totals of `save_outputs` satisfy
`total_chars_ref = CharSubstitution + CharDeletion` and
`total_chars_hyp = CharSubstitution + CharInsertion` over the aggregated
stats, and both equal a direct per-page recount from the raw character edit
sequences of all processed pages. -/
theorem claim9_derived_totals (ref_pages hyp_pages : List (List Char)) :
    total_chars_ref (analyze_pages_core ref_pages hyp_pages).1 =
        (analyze_pages_core ref_pages hyp_pages).1 "char_substitution" +
          (analyze_pages_core ref_pages hyp_pages).1 "char_deletion" ∧
      total_chars_hyp (analyze_pages_core ref_pages hyp_pages).1 =
        (analyze_pages_core ref_pages hyp_pages).1 "char_substitution" +
          (analyze_pages_core ref_pages hyp_pages).1 "char_insertion" ∧
      total_chars_ref (analyze_pages_core ref_pages hyp_pages).1 =
        ((List.range (min ref_pages.length hyp_pages.length)).map (fun i =>
          countTag 'S' (levenshtein_align (ref_pages.getD i [])
            (hyp_pages.getD i [])))).sum +
        ((List.range (min ref_pages.length hyp_pages.length)).map (fun i =>
          countTag 'D' (levenshtein_align (ref_pages.getD i [])
            (hyp_pages.getD i [])))).sum ∧
      total_chars_hyp (analyze_pages_core ref_pages hyp_pages).1 =
        ((List.range (min ref_pages.length hyp_pages.length)).map (fun i =>
          countTag 'S' (levenshtein_align (ref_pages.getD i [])
            (hyp_pages.getD i [])))).sum +
        ((List.range (min ref_pages.length hyp_pages.length)).map (fun i =>
          countTag 'I' (levenshtein_align (ref_pages.getD i [])
            (hyp_pages.getD i [])))).sum := by
  obtain ⟨h1, h2, h3⟩ := analyze_core_char_keys ref_pages hyp_pages
    (List.range (min ref_pages.length hyp_pages.length)) (fun _ => 0, [], fun _ => 0)
  refine ⟨rfl, rfl, ?_, ?_⟩
  · rw [total_chars_ref, analyze_pages_core, h1, h2]
    simp
  · rw [total_chars_hyp, analyze_pages_core, h1, h3]
    simp

end Transcribus








